import Mathlib

/-!
Verification of the Filament interval type-checker front end.

The definitions below are a shallow embedding of the Rust sources:
  * `src/core/mod.rs` (re-exports of the `core` data model),
  * `src/interval_checking/fact.rs` (timing facts and their SMT translation),
  * `src/errors.rs` (error values and the `FilamentResult` type),
  * `src/frontend/parser.rs` (the AST-building parser actions),
  * `src/main.rs` (the compilation pass pipeline).

`core/interval.rs` and `core/ast.rs` are not part of the sources; the
definitions that stand in for them are modelled from the specification
and are marked as such in their doc comments.
-/

namespace Filament

/-- An interned identifier (`core/id.rs`, re-exported by `core/mod.rs`).
Equality is by intern key; we model the key as the spelling itself. -/
abbrev Id := String

/-- The operator of a binary time-expression node (`core::TimeOp`,
re-exported by `core/mod.rs` from the absent `core/interval.rs`). -/
inductive TimeOp
  | Add
  | Max
deriving DecidableEq, Repr

/-- Modelled from the spec: `IntervalTime` (the symbolic time algebra of
the absent `core/interval.rs`): a non-negative constant, an abstract time
variable, or a binary `Add`/`Max` node.  The constructors `Abstract` and
`Concrete` and the `TimeOp` shape are fixed by their uses in
`frontend/parser.rs`. -/
inductive IntervalTime
  | Concrete : Nat → IntervalTime
  | Abstract : Id → IntervalTime
  | BinOp : TimeOp → IntervalTime → IntervalTime → IntervalTime
deriving DecidableEq, Repr

/-- A half-open range `[start, end)` of time expressions
(`core::Range`, constructed by `FilamentParser::interval_range`). -/
structure Range where
  start : IntervalTime
  «end» : IntervalTime
deriving DecidableEq, Repr

/-- An interval `[start, end)` (`core::Interval`, from the absent
`core/interval.rs`).  `interval_checking/fact.rs` reads exactly the
fields `start` and `end`; the optional `exact` sub-range is attached by
`with_exact`, which `frontend/parser.rs` chains into `PortDef::new`. -/
structure Interval where
  start : IntervalTime
  «end» : IntervalTime
  exact : Option Range := none
deriving DecidableEq, Repr

/-- `Interval::new(range)` as used by `FilamentParser::port_def`:
wraps a parsed range, with no exact sub-range. -/
def Interval.new (r : Range) : Interval :=
  { start := r.start, «end» := r.«end», exact := none }

/-- Modelled from the spec: `with_exact` attaches an exact sub-range to
an interval (absent `core/interval.rs`).  The parser chains it directly
into `PortDef::new`, so its result type is `Interval`. -/
def Interval.with_exact (iv : Interval) (r : Range) : Interval :=
  { iv with exact := some r }

/-- Type of the fact (`interval_checking/fact.rs`, `FactType`). -/
inductive FactType
  | Equality
  | Subset
deriving DecidableEq, Repr

/-- Set of known interval facts and equalities
(`interval_checking/fact.rs`, `struct Fact`): a tag and the two
intervals it relates. -/
structure Fact where
  tag : FactType
  left : Interval
  right : Interval
deriving DecidableEq, Repr

/-- `Fact::equality` (`interval_checking/fact.rs`). -/
def Fact.equality (left right : Interval) : Fact :=
  { tag := FactType.Equality, left := left, right := right }

/-- `Fact::subset` (`interval_checking/fact.rs`). -/
def Fact.subset (left right : Interval) : Fact :=
  { tag := FactType.Subset, left := left, right := right }

/-- An S-expression sent to the solver (`interval_checking`'s `SExp`,
whose module file is absent from the sources): a piece of solver text,
as witnessed by the construction `SExp(format!(...))` in
`interval_checking/fact.rs`. -/
structure SExp where
  text : String
deriving DecidableEq, Repr

/-- Modelled from the spec: `to_smt` for time expressions (the
`From<&IntervalTime> for SExp` conversion of the absent
`core/interval.rs`): integer variables for each abstract variable,
`(+ a b)` for addition and `(ite (<= a b) b a)` for `max`. -/
def sexpOfTime : IntervalTime → String
  | IntervalTime.Concrete n => toString n
  | IntervalTime.Abstract v => v
  | IntervalTime.BinOp TimeOp.Add a b =>
      "(+ " ++ sexpOfTime a ++ " " ++ sexpOfTime b ++ ")"
  | IntervalTime.BinOp TimeOp.Max a b =>
      "(ite (<= " ++ sexpOfTime a ++ " " ++ sexpOfTime b ++ ") "
        ++ sexpOfTime b ++ " " ++ sexpOfTime a ++ ")"

/-- Solver-text conjunction, as laid out by the `format!` string of
`impl From<&Fact> for SExp`. -/
def smtAnd (x y : String) : String := "(and " ++ x ++ " " ++ y ++ ")"

/-- Solver-text lower-bound comparison `(<= x y)`. -/
def smtLe (x y : String) : String := "(<= " ++ x ++ " " ++ y ++ ")"

/-- Solver-text upper-bound comparison `(>= x y)`. -/
def smtGe (x y : String) : String := "(>= " ++ x ++ " " ++ y ++ ")"

/-- `impl From<&Fact> for SExp` (`interval_checking/fact.rs`).  The
`Equality` arm is `todo!("Converting equality facts into z3 asserts")`,
i.e. a panic, modelled as `none`; the `Subset` arm produces
`(and (<= rs ls) (>= re le))` for left `[ls, le)` and right `[rs, re)`. -/
def sexpOfFact : Fact → Option SExp
  | { tag := FactType.Equality, left := _, right := _ } => none
  | { tag := FactType.Subset, left := l, right := r } =>
      some ⟨"(and (<= " ++ sexpOfTime r.start ++ " " ++ sexpOfTime l.start
        ++ ") (>= " ++ sexpOfTime r.«end» ++ " " ++ sexpOfTime l.«end» ++ "))"⟩

/-- A span of the input program (`errors.rs`, `struct Span`). -/
structure Span where
  input : String
  file : String
  start : Nat
  «end» : Nat
deriving DecidableEq, Repr

/-- Error kinds (`errors.rs`, `enum ErrorKind`).  The payload of
`ParseError` (a `pest_consume` error) is modelled by its rendered
message. -/
inductive ErrorKind
  | ParseError : String → ErrorKind
  | InvalidFile : String → ErrorKind
  | WriteError : String → ErrorKind
  | Malformed : String → ErrorKind
  | Undefined : Id → String → ErrorKind
  | AlreadyBound : Id → String → ErrorKind
  | Misc : String → ErrorKind
deriving DecidableEq, Repr

/-- A compiler error (`errors.rs`, `struct Error`): a kind plus a list
of notes, each an optional span with a message. -/
structure Error where
  kind : ErrorKind
  notes : List (String × Option Span)
deriving DecidableEq, Repr

/-- `Error::write_error` (`errors.rs`). -/
def Error.write_error (e : String) : Error :=
  { kind := ErrorKind.WriteError e, notes := [] }

/-- `Error::malformed` (`errors.rs`). -/
def Error.malformed (msg : String) : Error :=
  { kind := ErrorKind.Malformed msg, notes := [] }

/-- `Error.undefined` (`errors.rs`). -/
def Error.undefined (name : Id) (kind : String) : Error :=
  { kind := ErrorKind.Undefined name kind, notes := [] }

/-- `Error::already_bound` (`errors.rs`). -/
def Error.already_bound (name : Id) (kind : String) : Error :=
  { kind := ErrorKind.AlreadyBound name kind, notes := [] }

/-- `Error::misc` (`errors.rs`). -/
def Error.misc (msg : String) : Error :=
  { kind := ErrorKind.Misc msg, notes := [] }

/-- `Error::invalid_file` (`errors.rs`). -/
def Error.invalid_file (f : String) : Error :=
  { kind := ErrorKind.InvalidFile f, notes := [] }

/-- `FilamentResult<T>` (`errors.rs`): success or a single meaningful
compiler error, composed with the question-mark operator. -/
abbrev FilamentResult (T : Type) := Except Error T

/-- A `std::io::Error`, modelled by the operating-system message it
carries. -/
structure IOFailure where
  msg : String
deriving DecidableEq, Repr

/-- `impl From<std::io::Error> for Error` (`errors.rs`): the incoming
error is ignored (`from(_e)`) and replaced by the fixed message
`"IO Error"`. -/
def ioErrorToError (_e : IOFailure) : Error :=
  Error.write_error "IO Error"

/-- `impl From<rsmt2::errors::Error> for Error` (`errors.rs`): an SMT
solver error, modelled by its message, becomes a `Misc` error. -/
def smtErrorToError (e : String) : Error :=
  Error.misc ("SMT Error: " ++ e)

/-- Modelled from the spec: the per-component check driver of
`interval_checking` is absent from the sources; each step of a
component's check yields a `FilamentResult` and the steps are chained
with the question-mark operator, the propagation `errors.rs` documents
for `FilamentResult`.  `checkSteps` runs the steps in order under that
propagation. -/
def checkSteps : List (FilamentResult Unit) → FilamentResult Unit
  | [] => Except.ok ()
  | Except.error e :: _ => Except.error e
  | Except.ok _ :: rest => checkSteps rest

/-- The first error among a list of check steps, in order. -/
def firstError : List (FilamentResult Unit) → Option Error
  | [] => none
  | Except.error e :: _ => some e
  | Except.ok _ :: rest => firstError rest

/-- A fact tagged `Subset` relating `[0,1)` to itself, used as a
concrete evaluation point. -/
def iv01 : Interval :=
  { start := IntervalTime.Concrete 0, «end» := IntervalTime.Concrete 1 }

/-- The triple of fields of a `Fact`, bundled. -/
def factOfTriple (t : FactType × Interval × Interval) : Fact :=
  { tag := t.1, left := t.2.1, right := t.2.2 }

/-- Two distinct spans over the same input, as two distinct program
points demanding a fact would produce. -/
def spanA : Span := { input := "comp A", file := "a.fil", start := 0, «end» := 1 }

/-- See `spanA`. -/
def spanB : Span := { input := "comp A", file := "a.fil", start := 2, «end» := 3 }

/-- The result of a parser action (`frontend/parser.rs`,
`type ParseResult<T> = Result<T, Error<Rule>>`); the `pest` error is
modelled by its message. -/
abbrev ParseResult (T : Type) := Except String T

/-- The `Display` text of an `ErrorKind` (`errors.rs`,
`impl Display for ErrorKind`); also the `Debug` text of an `Error`. -/
def ErrorKind.display : ErrorKind → String
  | ErrorKind.AlreadyBound name bound_by =>
      "Name `" ++ name ++ String.singleton (Char.ofNat 39)
        ++ " is already bound by " ++ bound_by
  | ErrorKind.Undefined name typ => "Undefined " ++ typ ++ " name: " ++ name
  | ErrorKind.ParseError err => "Filament Parser: " ++ err
  | ErrorKind.InvalidFile msg => msg
  | ErrorKind.Misc msg => msg
  | ErrorKind.WriteError msg => msg
  | ErrorKind.Malformed msg => msg

/-- `format!("{err:?}")` on an `Error` (`errors.rs`, `impl Debug for
Error` writes the kind's `Display` text). -/
def Error.debugText (e : Error) : String := e.kind.display

/-- A port definition (`core::PortDef`): name, liveness interval and
bitwidth.  Modelled from the spec for the absent `core/ast.rs`. -/
structure PortDef where
  name : Id
  liveness : Interval
  bitwidth : Nat
deriving DecidableEq, Repr

/-- Modelled from the spec: `PortDef::new` of the absent `core/ast.rs`.
The parser's `.map`/`.map_err` chaining shows it returns a
`FilamentResult`; the spec names no input for it to reject beyond what
the grammar already excludes, so no input is rejected here. -/
def PortDef.new (name : Id) (liveness : Interval) (bitwidth : Nat) :
    FilamentResult PortDef :=
  Except.ok { name := name, liveness := liveness, bitwidth := bitwidth }

/-- `enum PdOrInt` (`frontend/parser.rs`): a parsed port definition is
either a proper port or an interface signal, the latter carried as the
pair `(name, time_var)`. -/
inductive PdOrInt
  | Pd : PortDef → PdOrInt
  | Int : Id × Id → PdOrInt
deriving DecidableEq, Repr

/-- The three shapes of children that `FilamentParser::port_def`
matches: an interface-signal form `@interface[tv] name: width`, a plain
ranged port, and a ranged port with an exact sub-range. -/
inductive PortDefNode
  | interfacePort : Id → Id → Nat → PortDefNode
  | plainPort : Range → Id → Nat → PortDefNode
  | exactPort : Range → Range → Id → Nat → PortDefNode
deriving DecidableEq, Repr

/-- `FilamentParser::port_def` (`frontend/parser.rs`): an
interface-signal form becomes `PdOrInt::Int((name, time_var))`, its
bitwidth matched as `bitwidth(_)` and discarded; the ranged forms build
a `PortDef`, errors rendered through `format!("{err:?}")`. -/
def port_def : PortDefNode → ParseResult PdOrInt
  | PortDefNode.interfacePort time_var name _w =>
      Except.ok (PdOrInt.Int (name, time_var))
  | PortDefNode.plainPort range name w =>
      (Except.map PdOrInt.Pd (PortDef.new name (Interval.new range) w)).mapError
        Error.debugText
  | PortDefNode.exactPort range exact name w =>
      (Except.map PdOrInt.Pd
        (PortDef.new name ((Interval.new range).with_exact exact) w)).mapError
        Error.debugText

/-- `FilamentParser::ports` (`frontend/parser.rs`): splits the parsed
port definitions into proper ports and interface signals, each kept in
source order. -/
def ports : List PdOrInt → List PortDef × List (Id × Id)
  | [] => ([], [])
  | PdOrInt.Pd p :: rest => ((ports rest).1.cons p, (ports rest).2)
  | PdOrInt.Int i :: rest => ((ports rest).1, (ports rest).2.cons i)

/-- `FilamentParser::io` (`frontend/parser.rs`): combines the optional
input and output port lists around the arrow.  Interface signals among
the outputs are a parse error; those among the inputs are returned. -/
def io : Option (List PdOrInt) → Option (List PdOrInt) →
    ParseResult (List PortDef × List PortDef × List (Id × Id))
  | none, none => Except.ok ([], [], [])
  | some i, none => Except.ok ((ports i).1, [], (ports i).2)
  | none, some o =>
      if !(ports o).2.isEmpty then
        Except.error "Output interface ports not supported"
      else
        Except.ok ([], (ports o).1, [])
  | some i, some o =>
      if !(ports o).2.isEmpty then
        Except.error "Output interface ports not supported"
      else
        Except.ok ((ports i).1, (ports o).1, (ports i).2)

/-- `core::OrderOp` as built by `FilamentParser::order_op`. -/
inductive OrderOp
  | Gte
  | Lte
  | Gt
  | Lt
  | Eq
deriving DecidableEq, Repr

/-- `core::Constraint` as built by `FilamentParser::constraint`. -/
structure Constraint where
  left : IntervalTime
  right : IntervalTime
  op : OrderOp
deriving DecidableEq, Repr

/-- `core::Signature` as built by `FilamentParser::signature`: name,
abstract variables, interface signals, input and output ports and
constraints. -/
structure Signature where
  name : Id
  abstract_vars : List Id
  interface_signals : List (Id × Id)
  inputs : List PortDef
  outputs : List PortDef
  constraints : List Constraint
deriving DecidableEq, Repr

/-- `core::Port` as built by `FilamentParser::port`. -/
inductive Port
  | Constant : Nat → Port
  | ThisPort : Id → Port
  | CompPort : Id → Id → Port
deriving DecidableEq, Repr

/-- `core::Guard` as built by `FilamentParser::guard`: a port or an
OR of guards. -/
inductive Guard
  | Port : Port → Guard
  | Or : Guard → Guard → Guard
deriving DecidableEq, Repr

/-- `core::Instance` as built by `FilamentParser::instance`. -/
structure Instance where
  name : Id
  component : Id
deriving DecidableEq, Repr

/-- `core::Invoke` as built by `FilamentParser::invocation` through
`Invoke::new(bind, comp, abstract_vars, ports).with_span(..)`
(constructor of the absent `core/ast.rs`, shape fixed by the call
site). -/
structure Invoke where
  bind : Id
  comp : Id
  abstract_vars : List IntervalTime
  ports : Option (List Port)
  span : Option Span
deriving DecidableEq, Repr

/-- `core::Connect` as built by `FilamentParser::connect` through
`Connect::new(dst, src, guard).with_span(span)`. -/
structure Connect where
  dst : Port
  src : Port
  guard : Option Guard
  span : Option Span
deriving DecidableEq, Repr

/-- `core::Command` as built by `FilamentParser::command`; the payload
of the `When` arm (`core::When`, a time and a command list) is inlined
into the constructor. -/
inductive Command
  | Invoke : Invoke → Command
  | Instance : Instance → Command
  | Connect : Connect → Command
  | When : IntervalTime → List Command → Command

/-- `core::Component` as built by `Component::new(sig, body)`. -/
structure Component where
  sig : Signature
  body : List Command

/-- `enum ExtOrComp` (`frontend/parser.rs`): a top-level declaration is
an external signature or a component. -/
inductive ExtOrComp
  | Ext : Signature → ExtOrComp
  | Comp : Component → ExtOrComp

/-- `core::Namespace` as built by `FilamentParser::file`: the import
list, the external signatures and the components. -/
structure Namespace where
  imports : List String
  signatures : List Signature
  components : List Component

/-- The external signature of a declaration, when it is one. -/
def ExtOrComp.extSig : ExtOrComp → Option Signature
  | ExtOrComp.Ext s => some s
  | ExtOrComp.Comp _ => none

/-- The component of a declaration, when it is one. -/
def ExtOrComp.compDef : ExtOrComp → Option Component
  | ExtOrComp.Comp c => some c
  | ExtOrComp.Ext _ => none

/-- The `for m in mixed` loop of `FilamentParser::file`: pushes each
declaration onto the matching list of the namespace. -/
def fileAccum : Namespace → List ExtOrComp → Namespace
  | ns, [] => ns
  | ns, ExtOrComp.Ext sig :: rest =>
      fileAccum { ns with signatures := ns.signatures ++ [sig] } rest
  | ns, ExtOrComp.Comp comp :: rest =>
      fileAccum { ns with components := ns.components ++ [comp] } rest

/-- `FilamentParser::file` (`frontend/parser.rs`): starts from the
parsed import list and empty signature and component lists, then folds
the mixed declarations in source order. -/
def file (imports : List String) (mixed : List ExtOrComp) : Namespace :=
  fileAccum { imports := imports, signatures := [], components := [] } mixed

/-- The passes `run` (`src/main.rs`) schedules on the IR, in order. -/
inductive Pass
  | AstConv
  | BuildDomination
  | TypeCheck
  | IntervalCheck
  | PhantomCheck
  | Assume
  | Discharge
  | Monomorphize
  | Simplify
  | AssignCheck
  | BundleElim
  | Compile
deriving DecidableEq, Repr

/-- The pass schedule of `run` (`src/main.rs:70-105`): the AST-to-IR
transform, the checking pipeline, `Discharge` guarded by
`if !opts.unsafe_skip_discharge`, the post passes, and `Compile` unless
the driver was asked only to check. -/
def pipelinePasses (skipDischarge checkOnly : Bool) : List Pass :=
  [Pass.AstConv, Pass.BuildDomination, Pass.TypeCheck, Pass.IntervalCheck,
    Pass.PhantomCheck, Pass.Assume]
  ++ (if skipDischarge then [] else [Pass.Discharge])
  ++ [Pass.BuildDomination, Pass.Monomorphize, Pass.Simplify, Pass.AssignCheck,
    Pass.BundleElim, Pass.AssignCheck]
  ++ (if checkOnly then [] else [Pass.Compile])

/-- Is the time expression a `Concrete` constant? -/
def isConc : IntervalTime → Bool
  | IntervalTime.Concrete _ => true
  | _ => false

/-- The constant carried by a `Concrete` node, if any. -/
def concVal : IntervalTime → Option Nat
  | IntervalTime.Concrete n => some n
  | _ => none

/-- Is the head of the expression not an `Add` node? -/
def notAdd : IntervalTime → Bool
  | IntervalTime.BinOp TimeOp.Add _ _ => false
  | _ => true

/-- Is the head of the expression not a `Max` node? -/
def notMax : IntervalTime → Bool
  | IntervalTime.BinOp TimeOp.Max _ _ => false
  | _ => true

/-- The operand multiset of a (possibly nested) `Add` node, flattened
in order. -/
def flatAdd : IntervalTime → List IntervalTime
  | IntervalTime.BinOp TimeOp.Add a b => flatAdd a ++ flatAdd b
  | e => [e]

/-- The operand multiset of a (possibly nested) `Max` node, flattened
in order. -/
def flatMax : IntervalTime → List IntervalTime
  | IntervalTime.BinOp TimeOp.Max a b => flatMax a ++ flatMax b
  | e => [e]

/-- The sort key of an operand: a string under whose lexicographic
order abstract variables (tagged `a`, then ordered by name) come before
constants (tagged `b`); operator nodes order by their own keys. -/
def enc : IntervalTime → String
  | IntervalTime.Abstract v => "a" ++ v
  | IntervalTime.Concrete n => "b" ++ toString n
  | IntervalTime.BinOp TimeOp.Add a b => "c" ++ enc a ++ enc b
  | IntervalTime.BinOp TimeOp.Max a b => "d" ++ enc a ++ enc b

/-- The total operand order used when sorting operand multisets:
comparison of sort keys. -/
def keyLe (x y : IntervalTime) : Prop := enc x ≤ enc y

instance : DecidableRel keyLe := fun x y =>
  inferInstanceAs (Decidable (enc x ≤ enc y))

instance : IsTotal IntervalTime keyLe :=
  ⟨fun a b => le_total (enc a) (enc b)⟩

instance : IsTrans IntervalTime keyLe :=
  ⟨fun _ _ _ h₁ h₂ => le_trans h₁ h₂⟩

/-- The constants among a list of operands, in order. -/
def constsOf (l : List IntervalTime) : List Nat := l.filterMap concVal

/-- The maximum of a list of folded constants (0 on the empty list,
which the callers never pass a folded constant from). -/
def maxList : List Nat → Nat
  | [] => 0
  | n :: rest => Nat.max n (maxList rest)

/-- The canonical operand list of an `Add` node: the non-constant
operands sorted by `keyLe`, followed by the single folded constant when
the operands held any constants. -/
def normAddOps (ops : List IntervalTime) : List IntervalTime :=
  List.insertionSort keyLe (ops.filter fun e => !isConc e)
    ++ (if constsOf ops = [] then []
        else [IntervalTime.Concrete (constsOf ops).sum])

/-- The canonical operand list of a `Max` node: the non-constant
operands sorted by `keyLe` with duplicates discarded, followed by the
single folded constant (their maximum) when the operands held any
constants. -/
def normMaxOps (ops : List IntervalTime) : List IntervalTime :=
  (List.insertionSort keyLe (ops.filter fun e => !isConc e)).dedup
    ++ (if constsOf ops = [] then []
        else [IntervalTime.Concrete (maxList (constsOf ops))])

/-- Rebuilds a right-nested binary chain of `op` nodes from a head
operand and the remaining operands. -/
def assemble (op : TimeOp) : IntervalTime → List IntervalTime → IntervalTime
  | x, [] => x
  | x, y :: rest => IntervalTime.BinOp op x (assemble op y rest)

/-- Rebuilds an expression from a canonical operand list; a single
operand stands alone, and the empty list (which the canonicalizer never
produces) falls back to the constant 0. -/
def rebuild (op : TimeOp) : List IntervalTime → IntervalTime
  | [] => IntervalTime.Concrete 0
  | x :: rest => assemble op x rest

/-- Modelled from the spec: `canonicalize` of the absent
`core/interval.rs` time algebra.  It flattens nested `Add`/`Max` into
operand multisets, folds the constants into one (their sum under `Add`,
their maximum under `Max`), sorts the operand multiset by the total
order `keyLe` on variable names then constants, and discards duplicated
`Max` operands. -/
def canonicalize : IntervalTime → IntervalTime
  | IntervalTime.Concrete n => IntervalTime.Concrete n
  | IntervalTime.Abstract v => IntervalTime.Abstract v
  | IntervalTime.BinOp TimeOp.Add a b =>
      rebuild TimeOp.Add
        (normAddOps (flatAdd (canonicalize a) ++ flatAdd (canonicalize b)))
  | IntervalTime.BinOp TimeOp.Max a b =>
      rebuild TimeOp.Max
        (normMaxOps (flatMax (canonicalize a) ++ flatMax (canonicalize b)))

/-- The shape of a canonical `Add` operand list: the non-constant
operands, sorted, optionally followed by one folded constant. -/
def AddShape (ops : List IntervalTime) : Prop :=
  ∃ vs tl, ops = vs ++ tl ∧ (∀ y ∈ vs, isConc y = false) ∧
    List.Sorted keyLe vs ∧ (tl = [] ∨ ∃ n, tl = [IntervalTime.Concrete n])

/-- The shape of a canonical `Max` operand list: as `AddShape`, and the
sorted non-constant operands carry no duplicates. -/
def MaxShape (ops : List IntervalTime) : Prop :=
  ∃ vs tl, ops = vs ++ tl ∧ (∀ y ∈ vs, isConc y = false) ∧
    List.Sorted keyLe vs ∧ vs.Nodup ∧
    (tl = [] ∨ ∃ n, tl = [IntervalTime.Concrete n])

/-- Canonical time expressions: constants, variables, and `Add`/`Max`
chains assembled from at least two canonical operands of the right
shape, none of which starts with the chain's own operator. -/
inductive Canon : IntervalTime → Prop
  | conc (n : Nat) : Canon (IntervalTime.Concrete n)
  | abs (v : Id) : Canon (IntervalTime.Abstract v)
  | add (x : IntervalTime) (rest : List IntervalTime)
      (hne : rest ≠ [])
      (hna : ∀ y ∈ x :: rest, notAdd y = true)
      (hcanon : ∀ y ∈ x :: rest, Canon y)
      (hshape : AddShape (x :: rest)) :
      Canon (assemble TimeOp.Add x rest)
  | max (x : IntervalTime) (rest : List IntervalTime)
      (hne : rest ≠ [])
      (hnm : ∀ y ∈ x :: rest, notMax y = true)
      (hcanon : ∀ y ∈ x :: rest, Canon y)
      (hshape : MaxShape (x :: rest)) :
      Canon (assemble TimeOp.Max x rest)

/-- C1: the solver formula produced from a `Subset` fact with left
interval `[a,b)` and right interval `[c,d)` is exactly the conjunction
of the lower-bound comparison `(<= c a)` on the starts and the
upper-bound comparison `(>= d b)` on the ends, and nothing else — the
encoding of `c ≤ a ∧ d ≥ b` whose negation the discharger checks. -/
theorem subset_fact_formula (l r : Interval) :
    sexpOfFact (Fact.subset l r) =
      some ⟨smtAnd (smtLe (sexpOfTime r.start) (sexpOfTime l.start))
                   (smtGe (sexpOfTime r.«end») (sexpOfTime l.«end»))⟩ := by
  show some _ = some _
  refine congrArg some (congrArg SExp.mk ?_)
  apply String.ext
  simp only [smtAnd, smtLe, smtGe, String.data_append, List.append_assoc]
  norm_num [String.data]

/-- C2 counterexample: translating the concrete `Equality` fact
`[0,1) = [0,1)` into a solver S-expression does not succeed — the
`Equality` arm of `impl From<&Fact> for SExp` is `todo!(...)`, a
panic, so the conversion is not total over both tags. -/
theorem equality_fact_translation_panics :
    sexpOfFact (Fact.equality iv01 iv01) = none := rfl

/-- C2 (amended): the translation of a `Fact` into a solver
S-expression is partial: it panics (is unimplemented) on every fact
tagged `Equality`, and succeeds exactly on facts tagged `Subset`. -/
theorem fact_translation_by_tag (f : Fact) :
    (f.tag = FactType.Equality → sexpOfFact f = none) ∧
    (f.tag = FactType.Subset → (sexpOfFact f).isSome = true) := by
  obtain ⟨tag, l, r⟩ := f
  cases tag <;> simp [sexpOfFact]

/-- C2 witness: the amended statement evaluated at the concrete facts
`[0,1) = [0,1)` and `[0,1) ⊆ [0,1)`. -/
theorem fact_translation_by_tag_witness :
    sexpOfFact (Fact.equality iv01 iv01) = none ∧
    (sexpOfFact (Fact.subset iv01 iv01)).isSome = true :=
  ⟨(fact_translation_by_tag (Fact.equality iv01 iv01)).1 rfl,
   (fact_translation_by_tag (Fact.subset iv01 iv01)).2 rfl⟩

/-- C3 counterexample: a check whose steps raise two distinct
recoverable errors (an `Undefined` and a `Malformed`) returns only the
first of them — the single-`Error` result type of `FilamentResult`
short-circuits at the first error instead of collecting the batch. -/
theorem check_not_batched :
    checkSteps [Except.error (Error.undefined "x" "port"),
                Except.error (Error.malformed "width mismatch")] =
      Except.error (Error.undefined "x" "port") ∧
    Error.undefined "x" "port" ≠ Error.malformed "width mismatch" :=
  ⟨rfl, by decide⟩

/-- C3 (amended): a component's check propagates through
`FilamentResult`, whose error side is a single `Error`: the result is
`Ok` when no step fails and otherwise the first error in step order,
every later error being dropped rather than collected into a batch. -/
theorem check_returns_first_error (steps : List (FilamentResult Unit)) :
    checkSteps steps =
      (match firstError steps with
       | some e => Except.error e
       | none => Except.ok ()) := by
  induction steps with
  | nil => rfl
  | cons s rest ih => cases s <;> simp [checkSteps, firstError, ih]

/-- C4 counterexample: a `Fact` value is exactly its
`(tag, left, right)` triple — the map from triples to facts is a
bijection, so no source span is recorded alongside the tag and the two
intervals, even though distinct demanding spans (here two spans of the
same file) exist to be recorded. -/
theorem fact_records_no_span :
    Function.Bijective factOfTriple ∧ spanA ≠ spanB := by
  refine ⟨⟨fun a b h => ?_, fun f => ⟨(f.tag, f.left, f.right), rfl⟩⟩, by decide⟩
  obtain ⟨a1, a2, a3⟩ := a
  obtain ⟨b1, b2, b3⟩ := b
  simpa [factOfTriple, Fact.mk.injEq, Prod.ext_iff] using h

/-- C4 (amended): a `Fact` records only its tag and its left and right
intervals; the span that demands it is not part of the fact value and
must be associated externally. -/
theorem fact_fields_complete (f : Fact) :
    f = { tag := f.tag, left := f.left, right := f.right } := rfl

/-- C10: every `std::io::Error` converts to the compiler error of kind
`WriteError` with the fixed message `"IO Error"` and no notes; the
incoming operating-system message is discarded, so two distinct I/O
failures convert to identical compiler errors. -/
theorem io_error_conversion_constant (e₁ e₂ : IOFailure) :
    ioErrorToError e₁ = ioErrorToError e₂ ∧
    (ioErrorToError e₁).kind = ErrorKind.WriteError "IO Error" ∧
    (ioErrorToError e₁).notes = [] :=
  ⟨rfl, rfl, rfl⟩

/-- The file loop appends the externals and the components of the
declaration list, in order, to whatever the namespace already holds. -/
theorem fileAccum_append (mixed : List ExtOrComp) (ns : Namespace) :
    fileAccum ns mixed =
      { imports := ns.imports,
        signatures := ns.signatures ++ mixed.filterMap ExtOrComp.extSig,
        components := ns.components ++ mixed.filterMap ExtOrComp.compDef } := by
  induction mixed generalizing ns with
  | nil => simp [fileAccum]
  | cons m rest ih =>
      cases m <;>
        simp [fileAccum, ih, ExtOrComp.extSig, ExtOrComp.compDef]

/-- C6: parsing a file yields a namespace whose import list is exactly
the parsed import paths in source order, whose signatures are exactly
the declarations parsed as externals and whose components are exactly
the non-external components, each in source order — `filterMap` keeps
order and multiplicity, so nothing is dropped, duplicated or reordered
within a kind. -/
theorem file_preserves_declarations (imports : List String)
    (mixed : List ExtOrComp) :
    (file imports mixed).imports = imports ∧
    (file imports mixed).signatures = mixed.filterMap ExtOrComp.extSig ∧
    (file imports mixed).components = mixed.filterMap ExtOrComp.compDef := by
  simp [file, fileAccum_append]

/-- The interface-signal half of `ports` is empty exactly when no
parsed port definition is an interface signal. -/
theorem ports_interface_empty_iff (l : List PdOrInt) :
    (ports l).2 = [] ↔ ∀ p, PdOrInt.Int p ∉ l := by
  induction l with
  | nil => simp [ports]
  | cons m rest ih =>
      cases m with
      | Pd p => simp [ports, ih]
      | Int i =>
          simp only [ports]
          constructor
          · intro h
            exact absurd h (List.cons_ne_nil _ _)
          · intro h
            exact absurd (h i) (by simp)

/-- C8: whenever a port in interface-signal form appears among the
output ports of a signature's I/O list, `FilamentParser::io` fails with
the parse error "Output interface ports not supported" — interface
signals are accepted only on the input side. -/
theorem output_interface_rejected (ins : Option (List PdOrInt))
    (o : List PdOrInt) (h : ∃ p, PdOrInt.Int p ∈ o) :
    io ins (some o) = Except.error "Output interface ports not supported" := by
  obtain ⟨p, hp⟩ := h
  have hne : (ports o).2 ≠ [] := by
    intro hnil
    exact (ports_interface_empty_iff o).1 hnil p hp
  have hbe : (ports o).2.isEmpty = false := by
    simpa [List.isEmpty_iff] using hne
  cases ins <;> simp [io, hbe]

/-- C8 witness: an output list holding the single interface signal
`@interface[G] go` is rejected with the expected message. -/
theorem output_interface_rejected_witness :
    (∃ p, PdOrInt.Int p ∈ [PdOrInt.Int ("go", "G")]) ∧
    io none (some [PdOrInt.Int ("go", "G")]) =
      Except.error "Output interface ports not supported" :=
  ⟨⟨("go", "G"), by simp⟩,
   output_interface_rejected none [PdOrInt.Int ("go", "G")]
     ⟨("go", "G"), by simp⟩⟩

/-- C9: a port definition in interface-signal form parses to exactly
the pair `(name, time_var)`: the declared bitwidth is discarded without
validation, so every width — not only 1 — is accepted and none appears
in the result. -/
theorem interface_port_width_discarded (time_var name : Id) (w : Nat) :
    port_def (PortDefNode.interfacePort time_var name w) =
      Except.ok (PdOrInt.Int (name, time_var)) := rfl

/-- An expression whose head is not `Add` flattens to itself. -/
theorem flatAdd_of_notAdd {e : IntervalTime} (h : notAdd e = true) :
    flatAdd e = [e] := by
  cases e with
  | Concrete n => rfl
  | Abstract v => rfl
  | BinOp op a b =>
      cases op with
      | Add => simp [notAdd] at h
      | Max => rfl

/-- An expression whose head is not `Max` flattens to itself. -/
theorem flatMax_of_notMax {e : IntervalTime} (h : notMax e = true) :
    flatMax e = [e] := by
  cases e with
  | Concrete n => rfl
  | Abstract v => rfl
  | BinOp op a b =>
      cases op with
      | Add => rfl
      | Max => simp [notMax] at h

/-- No element of a flattened `Add` operand list starts with `Add`. -/
theorem mem_flatAdd_notAdd :
    ∀ (e : IntervalTime), ∀ y ∈ flatAdd e, notAdd y = true := by
  intro e
  induction e with
  | Concrete n => intro y hy; simp [flatAdd] at hy; subst hy; rfl
  | Abstract v => intro y hy; simp [flatAdd] at hy; subst hy; rfl
  | BinOp op a b iha ihb =>
      cases op with
      | Add =>
          intro y hy
          simp only [flatAdd] at hy
          rcases List.mem_append.mp hy with h | h
          exacts [iha y h, ihb y h]
      | Max => intro y hy; simp [flatAdd] at hy; subst hy; rfl

/-- No element of a flattened `Max` operand list starts with `Max`. -/
theorem mem_flatMax_notMax :
    ∀ (e : IntervalTime), ∀ y ∈ flatMax e, notMax y = true := by
  intro e
  induction e with
  | Concrete n => intro y hy; simp [flatMax] at hy; subst hy; rfl
  | Abstract v => intro y hy; simp [flatMax] at hy; subst hy; rfl
  | BinOp op a b iha ihb =>
      cases op with
      | Add => intro y hy; simp [flatMax] at hy; subst hy; rfl
      | Max =>
          intro y hy
          simp only [flatMax] at hy
          rcases List.mem_append.mp hy with h | h
          exacts [iha y h, ihb y h]

/-- Flattening an assembled `Add` chain of non-`Add` operands recovers
exactly the operand list. -/
theorem flatAdd_assemble (rest : List IntervalTime) :
    ∀ x, notAdd x = true → (∀ y ∈ rest, notAdd y = true) →
      flatAdd (assemble TimeOp.Add x rest) = x :: rest := by
  induction rest with
  | nil => intro x hx _; simp [assemble, flatAdd_of_notAdd hx]
  | cons r rs ih =>
      intro x hx hrest
      have hr : notAdd r = true := hrest r (by simp)
      have hrs : ∀ y ∈ rs, notAdd y = true :=
        fun y hy => hrest y (List.mem_cons_of_mem r hy)
      simp [assemble, flatAdd, flatAdd_of_notAdd hx, ih r hr hrs]

/-- Flattening an assembled `Max` chain of non-`Max` operands recovers
exactly the operand list. -/
theorem flatMax_assemble (rest : List IntervalTime) :
    ∀ x, notMax x = true → (∀ y ∈ rest, notMax y = true) →
      flatMax (assemble TimeOp.Max x rest) = x :: rest := by
  induction rest with
  | nil => intro x hx _; simp [assemble, flatMax_of_notMax hx]
  | cons r rs ih =>
      intro x hx hrest
      have hr : notMax r = true := hrest r (by simp)
      have hrs : ∀ y ∈ rs, notMax y = true :=
        fun y hy => hrest y (List.mem_cons_of_mem r hy)
      simp [assemble, flatMax, flatMax_of_notMax hx, ih r hr hrs]

/-- Every element of the `Add`-flattening of a canonical expression is
canonical. -/
theorem canon_flatAdd {e : IntervalTime} (h : Canon e) :
    ∀ y ∈ flatAdd e, Canon y := by
  cases h with
  | conc n => intro y hy; simp [flatAdd] at hy; subst hy; exact Canon.conc n
  | abs v => intro y hy; simp [flatAdd] at hy; subst hy; exact Canon.abs v
  | add x rest hne hna hcanon hshape =>
      intro y hy
      rw [flatAdd_assemble rest x (hna x (by simp))
        (fun z hz => hna z (List.mem_cons_of_mem x hz))] at hy
      exact hcanon y hy
  | max x rest hne hnm hcanon hshape =>
      intro y hy
      obtain ⟨r, rs, rfl⟩ : ∃ r rs, rest = r :: rs := by
        cases rest with
        | nil => exact absurd rfl hne
        | cons r rs => exact ⟨r, rs, rfl⟩
      simp only [assemble, flatAdd, List.mem_singleton] at hy
      subst hy
      exact Canon.max x (r :: rs) hne hnm hcanon hshape

/-- Every element of the `Max`-flattening of a canonical expression is
canonical. -/
theorem canon_flatMax {e : IntervalTime} (h : Canon e) :
    ∀ y ∈ flatMax e, Canon y := by
  cases h with
  | conc n => intro y hy; simp [flatMax] at hy; subst hy; exact Canon.conc n
  | abs v => intro y hy; simp [flatMax] at hy; subst hy; exact Canon.abs v
  | max x rest hne hnm hcanon hshape =>
      intro y hy
      rw [flatMax_assemble rest x (hnm x (by simp))
        (fun z hz => hnm z (List.mem_cons_of_mem x hz))] at hy
      exact hcanon y hy
  | add x rest hne hna hcanon hshape =>
      intro y hy
      obtain ⟨r, rs, rfl⟩ : ∃ r rs, rest = r :: rs := by
        cases rest with
        | nil => exact absurd rfl hne
        | cons r rs => exact ⟨r, rs, rfl⟩
      simp only [assemble, flatMax, List.mem_singleton] at hy
      subst hy
      exact Canon.add x (r :: rs) hne hna hcanon hshape

/-- The canonical `Add` operand list always has the canonical shape. -/
theorem normAddOps_shape (ops : List IntervalTime) :
    AddShape (normAddOps ops) := by
  refine ⟨List.insertionSort keyLe (ops.filter fun e => !isConc e),
    if constsOf ops = [] then []
    else [IntervalTime.Concrete (constsOf ops).sum], rfl, ?_, ?_, ?_⟩
  · intro y hy
    have hy' : y ∈ ops.filter (fun e => !isConc e) :=
      (List.mem_insertionSort keyLe).mp hy
    simpa using List.of_mem_filter hy'
  · exact List.sorted_insertionSort keyLe _
  · split
    · exact Or.inl rfl
    · exact Or.inr ⟨_, rfl⟩

/-- The canonical `Max` operand list always has the canonical shape. -/
theorem normMaxOps_shape (ops : List IntervalTime) :
    MaxShape (normMaxOps ops) := by
  refine ⟨(List.insertionSort keyLe (ops.filter fun e => !isConc e)).dedup,
    if constsOf ops = [] then []
    else [IntervalTime.Concrete (maxList (constsOf ops))], rfl, ?_, ?_, ?_, ?_⟩
  · intro y hy
    have hy' : y ∈ ops.filter (fun e => !isConc e) :=
      (List.mem_insertionSort keyLe).mp (List.mem_dedup.mp hy)
    simpa using List.of_mem_filter hy'
  · exact List.Pairwise.sublist (List.dedup_sublist _)
      (List.sorted_insertionSort keyLe _)
  · exact List.nodup_dedup _
  · split
    · exact Or.inl rfl
    · exact Or.inr ⟨_, rfl⟩

/-- Every canonical `Add` operand comes from the flattened operands or
is the folded constant. -/
theorem mem_normAddOps {ops : List IntervalTime} {y : IntervalTime}
    (hy : y ∈ normAddOps ops) : y ∈ ops ∨ ∃ n, y = IntervalTime.Concrete n := by
  rcases List.mem_append.mp hy with h | h
  · exact Or.inl
      (List.mem_of_mem_filter ((List.mem_insertionSort keyLe).mp h))
  · right
    revert h
    split
    · intro h; simp at h
    · intro h; exact ⟨_, List.mem_singleton.mp h⟩

/-- Every canonical `Max` operand comes from the flattened operands or
is the folded constant. -/
theorem mem_normMaxOps {ops : List IntervalTime} {y : IntervalTime}
    (hy : y ∈ normMaxOps ops) : y ∈ ops ∨ ∃ n, y = IntervalTime.Concrete n := by
  rcases List.mem_append.mp hy with h | h
  · exact Or.inl (List.mem_of_mem_filter
      ((List.mem_insertionSort keyLe).mp (List.mem_dedup.mp h)))
  · right
    revert h
    split
    · intro h; simp at h
    · intro h; exact ⟨_, List.mem_singleton.mp h⟩

/-- A list already in canonical `Add` shape is left unchanged by
`Add`-operand normalization. -/
theorem normAddOps_fixed {ops : List IntervalTime} (h : AddShape ops) :
    normAddOps ops = ops := by
  obtain ⟨vs, tl, rfl, hvc, hsort, htl⟩ := h
  have hfil : (vs ++ tl).filter (fun e => !isConc e) = vs := by
    rw [List.filter_append]
    have h1 : vs.filter (fun e => !isConc e) = vs :=
      List.filter_eq_self.mpr fun a ha => by simp [hvc a ha]
    have h2 : tl.filter (fun e => !isConc e) = [] := by
      rcases htl with rfl | ⟨n, rfl⟩
      · rfl
      · simp [isConc]
    rw [h1, h2, List.append_nil]
  have hconsts : constsOf (vs ++ tl) = constsOf tl := by
    unfold constsOf
    rw [List.filterMap_append]
    have hnil : vs.filterMap concVal = [] :=
      List.filterMap_eq_nil_iff.mpr fun a ha => by
        have := hvc a ha
        cases a <;> simp_all [isConc, concVal]
    rw [hnil, List.nil_append]
  unfold normAddOps
  rw [hfil, hsort.insertionSort_eq, hconsts]
  rcases htl with rfl | ⟨n, rfl⟩
  · simp [constsOf]
  · simp [constsOf, concVal, List.filterMap]

/-- A list already in canonical `Max` shape is left unchanged by
`Max`-operand normalization. -/
theorem normMaxOps_fixed {ops : List IntervalTime} (h : MaxShape ops) :
    normMaxOps ops = ops := by
  obtain ⟨vs, tl, rfl, hvc, hsort, hnd, htl⟩ := h
  have hfil : (vs ++ tl).filter (fun e => !isConc e) = vs := by
    rw [List.filter_append]
    have h1 : vs.filter (fun e => !isConc e) = vs :=
      List.filter_eq_self.mpr fun a ha => by simp [hvc a ha]
    have h2 : tl.filter (fun e => !isConc e) = [] := by
      rcases htl with rfl | ⟨n, rfl⟩
      · rfl
      · simp [isConc]
    rw [h1, h2, List.append_nil]
  have hconsts : constsOf (vs ++ tl) = constsOf tl := by
    unfold constsOf
    rw [List.filterMap_append]
    have hnil : vs.filterMap concVal = [] :=
      List.filterMap_eq_nil_iff.mpr fun a ha => by
        have := hvc a ha
        cases a <;> simp_all [isConc, concVal]
    rw [hnil, List.nil_append]
  unfold normMaxOps
  rw [hfil, hsort.insertionSort_eq, hnd.dedup, hconsts]
  rcases htl with rfl | ⟨n, rfl⟩
  · simp [constsOf]
  · simp [constsOf, concVal, List.filterMap, maxList]

/-- The tail of a list in canonical `Add` shape is in canonical `Add`
shape. -/
theorem addShape_of_cons {x : IntervalTime} {ops : List IntervalTime}
    (h : AddShape (x :: ops)) : AddShape ops := by
  obtain ⟨vs, tl, heq, hvc, hsort, htl⟩ := h
  cases vs with
  | nil =>
      rcases htl with rfl | ⟨n, rfl⟩
      · simp at heq
      · rw [List.nil_append] at heq
        obtain ⟨-, rfl⟩ := List.cons.inj heq
        exact ⟨[], [], rfl, by simp, List.sorted_nil, Or.inl rfl⟩
  | cons v vs' =>
      rw [List.cons_append] at heq
      obtain ⟨-, rfl⟩ := List.cons.inj heq
      exact ⟨vs', tl, rfl, fun y hy => hvc y (List.mem_cons_of_mem v hy),
        hsort.of_cons, htl⟩

/-- The tail of a list in canonical `Max` shape is in canonical `Max`
shape. -/
theorem maxShape_of_cons {x : IntervalTime} {ops : List IntervalTime}
    (h : MaxShape (x :: ops)) : MaxShape ops := by
  obtain ⟨vs, tl, heq, hvc, hsort, hnd, htl⟩ := h
  cases vs with
  | nil =>
      rcases htl with rfl | ⟨n, rfl⟩
      · simp at heq
      · rw [List.nil_append] at heq
        obtain ⟨-, rfl⟩ := List.cons.inj heq
        exact ⟨[], [], rfl, by simp, List.sorted_nil, List.nodup_nil,
          Or.inl rfl⟩
  | cons v vs' =>
      rw [List.cons_append] at heq
      obtain ⟨-, rfl⟩ := List.cons.inj heq
      exact ⟨vs', tl, rfl, fun y hy => hvc y (List.mem_cons_of_mem v hy),
        hsort.of_cons, hnd.of_cons, htl⟩

/-- An assembled `Add` chain of canonicalize-fixed, non-`Add` operands
in canonical shape is itself fixed by `canonicalize`. -/
theorem assemble_add_fixed (rest : List IntervalTime) :
    ∀ x, (∀ y ∈ x :: rest, canonicalize y = y) →
      (∀ y ∈ x :: rest, notAdd y = true) → AddShape (x :: rest) →
      canonicalize (assemble TimeOp.Add x rest) = assemble TimeOp.Add x rest := by
  induction rest with
  | nil => intro x hfix _ _; simpa [assemble] using hfix x (by simp)
  | cons r rs ih =>
      intro x hfix hna hshape
      have hx : canonicalize x = x := hfix x (by simp)
      have hxa : notAdd x = true := hna x (by simp)
      have hsub : canonicalize (assemble TimeOp.Add r rs) =
          assemble TimeOp.Add r rs :=
        ih r (fun y hy => hfix y (List.mem_cons_of_mem x hy))
          (fun y hy => hna y (List.mem_cons_of_mem x hy))
          (addShape_of_cons hshape)
      show canonicalize
        (IntervalTime.BinOp TimeOp.Add x (assemble TimeOp.Add r rs)) = _
      simp only [canonicalize]
      rw [hx, hsub, flatAdd_of_notAdd hxa,
        flatAdd_assemble rs r (hna r (by simp))
          (fun y hy => hna y (List.mem_cons_of_mem x (List.mem_cons_of_mem r hy))),
        List.singleton_append, normAddOps_fixed hshape]
      rfl

/-- An assembled `Max` chain of canonicalize-fixed, non-`Max` operands
in canonical shape is itself fixed by `canonicalize`. -/
theorem assemble_max_fixed (rest : List IntervalTime) :
    ∀ x, (∀ y ∈ x :: rest, canonicalize y = y) →
      (∀ y ∈ x :: rest, notMax y = true) → MaxShape (x :: rest) →
      canonicalize (assemble TimeOp.Max x rest) = assemble TimeOp.Max x rest := by
  induction rest with
  | nil => intro x hfix _ _; simpa [assemble] using hfix x (by simp)
  | cons r rs ih =>
      intro x hfix hnm hshape
      have hx : canonicalize x = x := hfix x (by simp)
      have hxm : notMax x = true := hnm x (by simp)
      have hsub : canonicalize (assemble TimeOp.Max r rs) =
          assemble TimeOp.Max r rs :=
        ih r (fun y hy => hfix y (List.mem_cons_of_mem x hy))
          (fun y hy => hnm y (List.mem_cons_of_mem x hy))
          (maxShape_of_cons hshape)
      show canonicalize
        (IntervalTime.BinOp TimeOp.Max x (assemble TimeOp.Max r rs)) = _
      simp only [canonicalize]
      rw [hx, hsub, flatMax_of_notMax hxm,
        flatMax_assemble rs r (hnm r (by simp))
          (fun y hy => hnm y (List.mem_cons_of_mem x (List.mem_cons_of_mem r hy))),
        List.singleton_append, normMaxOps_fixed hshape]
      rfl

/-- Canonical expressions are fixed points of `canonicalize`. -/
theorem canon_fixed {e : IntervalTime} (h : Canon e) :
    canonicalize e = e := by
  induction h with
  | conc n => rfl
  | abs v => rfl
  | add x rest hne hna hcanon hshape ih =>
      exact assemble_add_fixed rest x ih hna hshape
  | max x rest hne hnm hcanon hshape ih =>
      exact assemble_max_fixed rest x ih hnm hshape

/-- `canonicalize` always produces a canonical expression. -/
theorem canon_canonicalize : ∀ e, Canon (canonicalize e) := by
  intro e
  induction e with
  | Concrete n => exact Canon.conc n
  | Abstract v => exact Canon.abs v
  | BinOp op a b iha ihb =>
      cases op with
      | Add =>
          have hna : ∀ y ∈ flatAdd (canonicalize a) ++ flatAdd (canonicalize b),
              notAdd y = true := by
            intro y hy
            rcases List.mem_append.mp hy with h | h
            exacts [mem_flatAdd_notAdd _ y h, mem_flatAdd_notAdd _ y h]
          have hc : ∀ y ∈ flatAdd (canonicalize a) ++ flatAdd (canonicalize b),
              Canon y := by
            intro y hy
            rcases List.mem_append.mp hy with h | h
            exacts [canon_flatAdd iha y h, canon_flatAdd ihb y h]
          have hshape :=
            normAddOps_shape (flatAdd (canonicalize a) ++ flatAdd (canonicalize b))
          show Canon (rebuild TimeOp.Add
            (normAddOps (flatAdd (canonicalize a) ++ flatAdd (canonicalize b))))
          rcases hno : normAddOps (flatAdd (canonicalize a) ++ flatAdd (canonicalize b))
            with - | ⟨x, - | ⟨r, rs⟩⟩
          · exact Canon.conc 0
          · have hx : x ∈
                normAddOps (flatAdd (canonicalize a) ++ flatAdd (canonicalize b)) := by
              rw [hno]; simp
            show Canon x
            rcases mem_normAddOps hx with h | ⟨n, rfl⟩
            · exact hc x h
            · exact Canon.conc n
          · have hmem : ∀ y ∈ x :: r :: rs,
                y ∈ normAddOps (flatAdd (canonicalize a) ++ flatAdd (canonicalize b)) := by
              rw [hno]; exact fun y hy => hy
            have hna2 : ∀ y ∈ x :: r :: rs, notAdd y = true := by
              intro y hy
              rcases mem_normAddOps (hmem y hy) with h | ⟨n, rfl⟩
              · exact hna y h
              · rfl
            have hc2 : ∀ y ∈ x :: r :: rs, Canon y := by
              intro y hy
              rcases mem_normAddOps (hmem y hy) with h | ⟨n, rfl⟩
              · exact hc y h
              · exact Canon.conc n
            have hshape2 : AddShape (x :: r :: rs) := hno ▸ hshape
            exact Canon.add x (r :: rs) (by simp) hna2 hc2 hshape2
      | Max =>
          have hnm : ∀ y ∈ flatMax (canonicalize a) ++ flatMax (canonicalize b),
              notMax y = true := by
            intro y hy
            rcases List.mem_append.mp hy with h | h
            exacts [mem_flatMax_notMax _ y h, mem_flatMax_notMax _ y h]
          have hc : ∀ y ∈ flatMax (canonicalize a) ++ flatMax (canonicalize b),
              Canon y := by
            intro y hy
            rcases List.mem_append.mp hy with h | h
            exacts [canon_flatMax iha y h, canon_flatMax ihb y h]
          have hshape :=
            normMaxOps_shape (flatMax (canonicalize a) ++ flatMax (canonicalize b))
          show Canon (rebuild TimeOp.Max
            (normMaxOps (flatMax (canonicalize a) ++ flatMax (canonicalize b))))
          rcases hno : normMaxOps (flatMax (canonicalize a) ++ flatMax (canonicalize b))
            with - | ⟨x, - | ⟨r, rs⟩⟩
          · exact Canon.conc 0
          · have hx : x ∈
                normMaxOps (flatMax (canonicalize a) ++ flatMax (canonicalize b)) := by
              rw [hno]; simp
            show Canon x
            rcases mem_normMaxOps hx with h | ⟨n, rfl⟩
            · exact hc x h
            · exact Canon.conc n
          · have hmem : ∀ y ∈ x :: r :: rs,
                y ∈ normMaxOps (flatMax (canonicalize a) ++ flatMax (canonicalize b)) := by
              rw [hno]; exact fun y hy => hy
            have hnm2 : ∀ y ∈ x :: r :: rs, notMax y = true := by
              intro y hy
              rcases mem_normMaxOps (hmem y hy) with h | ⟨n, rfl⟩
              · exact hnm y h
              · rfl
            have hc2 : ∀ y ∈ x :: r :: rs, Canon y := by
              intro y hy
              rcases mem_normMaxOps (hmem y hy) with h | ⟨n, rfl⟩
              · exact hc y h
              · exact Canon.conc n
            have hshape2 : MaxShape (x :: r :: rs) := hno ▸ hshape
            exact Canon.max x (r :: rs) (by simp) hnm2 hc2 hshape2

/-- C7: canonicalization of time expressions is idempotent — for every
`IntervalTime` expression `e`,
`canonicalize (canonicalize e) = canonicalize e`. -/
theorem canonicalize_idempotent (e : IntervalTime) :
    canonicalize (canonicalize e) = canonicalize e :=
  canon_fixed (canon_canonicalize e)

/-- C5: with the skip-discharge flag set, the pass schedule is exactly
the unset schedule with the `Discharge` pass removed — every other pass
still runs in the same order — and with the flag unset `Discharge` does
run. -/
theorem skip_discharge_is_noop (checkOnly : Bool) :
    pipelinePasses true checkOnly =
      (pipelinePasses false checkOnly).filter (fun p => p != Pass.Discharge) ∧
    Pass.Discharge ∈ pipelinePasses false checkOnly ∧
    Pass.Discharge ∉ pipelinePasses true checkOnly := by
  cases checkOnly <;> exact ⟨by decide, by decide, by decide⟩

end Filament
